import Mathlib

/-!
Verification of the waypoint-constrained maze solver
(`final_solver.py`: `can_move`, `move`, `bfs_path`, `path_through_waypoints`).

The grid is a rectangular array of cells, each carrying four independent
boolean wall flags; coordinates are integers, and all bounds checks are
explicit, exactly as in the source.  The breadth-first search is embedded
with an explicit fuel parameter: `bfsAux` returns `none` when the fuel runs
out and `some r` when the loop finishes with result `r`; a termination
theorem below shows that the fuel chosen in `bfs_path` always suffices, so
the embedding computes exactly what the source's unbounded loop computes.
-/

namespace MazeSolver

/-- The four movement directions of the solver. -/
inductive Direction where
  | UP
  | DOWN
  | LEFT
  | RIGHT
deriving DecidableEq, Repr

open Direction

/-- A cell's four wall flags (`cell['walls']` in the source). -/
structure Cell where
  top : Bool
  bottom : Bool
  left : Bool
  right : Bool
deriving DecidableEq, Repr

/-- The maze grid: dimensions plus the row-major cell array.  `cell y x`
corresponds to `grid[y][x]` in the source; the solver only ever reads cells
after an explicit bounds check, so a total function models the fully
populated array faithfully. -/
structure Grid where
  width : Nat
  height : Nat
  cell : Nat → Nat → Cell

/-- The wall field consulted for each direction
(the `moves = {'UP': 'top', ...}` table in `can_move`). -/
def wallFlag (c : Cell) : Direction → Bool
  | UP => c.top
  | DOWN => c.bottom
  | LEFT => c.left
  | RIGHT => c.right

/-- Source `can_move(grid, x, y, direction, width, height)`: out-of-bounds
departure cells admit no move; otherwise the departure cell's own wall flag
for the direction is consulted (never the destination's reciprocal flag). -/
def can_move (g : Grid) (x y : Int) (d : Direction) : Bool :=
  if y < 0 ∨ (g.height : Int) ≤ y ∨ x < 0 ∨ (g.width : Int) ≤ x then false
  else !(wallFlag (g.cell y.toNat x.toNat) d)

/-- Coordinate delta of each direction (`deltas` table in `move`). -/
def deltas : Direction → Int × Int
  | UP => (0, -1)
  | DOWN => (0, 1)
  | LEFT => (-1, 0)
  | RIGHT => (1, 0)

/-- Source `move(x, y, direction)`. -/
def move (x y : Int) (d : Direction) : Int × Int :=
  (x + (deltas d).1, y + (deltas d).2)

/-- Bounds test `0 <= x < width and 0 <= y < height` used on the destination
of each expansion step. -/
def inBoundsB (g : Grid) (q : Int × Int) : Bool :=
  decide (0 ≤ q.1) && decide (q.1 < (g.width : Int)) &&
    decide (0 ≤ q.2) && decide (q.2 < (g.height : Int))

/-- A queue entry: the cell together with the accumulated move list. -/
abbrev Entry := (Int × Int) × List Direction

/-- One direction of the expansion loop body inside `bfs_path`: if the move
is permitted and the destination is unvisited and in bounds, mark it visited
and append it to the batch of newly enqueued entries. -/
def expandStep (g : Grid) (c : Int × Int) (p : List Direction)
    (st : List (Int × Int) × List Entry) (d : Direction) :
    List (Int × Int) × List Entry :=
  if can_move g c.1 c.2 d then
    if move c.1 c.2 d ∉ st.1 ∧ inBoundsB g (move c.1 c.2 d) = true then
      (move c.1 c.2 d :: st.1, st.2 ++ [(move c.1 c.2 d, p ++ [d])])
    else st
  else st

/-- The `for direction in ['UP', 'DOWN', 'LEFT', 'RIGHT']` expansion loop:
returns the updated visited set and the list of entries to enqueue, in
order. -/
def expand (g : Grid) (c : Int × Int) (p : List Direction)
    (visited : List (Int × Int)) : List (Int × Int) × List Entry :=
  [UP, DOWN, LEFT, RIGHT].foldl (expandStep g c p) (visited, [])

/-- The `while queue:` loop of `bfs_path`, with explicit fuel.  Outer `none`
means the fuel ran out (shown impossible for the fuel used by `bfs_path`);
`some none` is the source's `return None`, `some (some p)` its
`return path`. -/
def bfsAux (g : Grid) (e : Int × Int) :
    Nat → List Entry → List (Int × Int) → Option (Option (List Direction))
  | _, [], _ => some none
  | 0, _ :: _, _ => none
  | fuel + 1, (c, p) :: rest, visited =>
    if c = e then some (some p)
    else
      let st := expand g c p visited
      bfsAux g e fuel (rest ++ st.2) st.1

/-- Source `bfs_path(grid, width, height, start, end)`: queue seeded with
`(start, [])`, visited seeded with `{start}`.  The fuel `width*height + 2`
strictly exceeds the maximal number of loop iterations (see
`bfsAux_fuel_sufficient`). -/
def bfs_path (g : Grid) (s e : Int × Int) : Option (List Direction) :=
  (bfsAux g e (g.width * g.height + 2) [(s, [])] [s]).getD none

/-- One iteration of the `for target in all_points[1:]` loop of
`path_through_waypoints`: on success append the segment and advance, on
`None` leave the state unchanged. -/
def routeStep (g : Grid) (st : List Direction × (Int × Int))
    (target : Int × Int) : List Direction × (Int × Int) :=
  match bfs_path g st.2 target with
  | some segment => (st.1 ++ segment, target)
  | none => st

/-- The trailing `if current != goal:` fallback of `path_through_waypoints`:
one more direct search, appended only when truthy (`if final:` in the
source, which is false both for `None` and for the empty list). -/
def routeFinish (g : Grid) (goal : Int × Int)
    (st : List Direction × (Int × Int)) : List Direction :=
  if st.2 ≠ goal then
    match bfs_path g st.2 goal with
    | some final => if final.isEmpty then st.1 else st.1 ++ final
    | none => st.1
  else st.1

/-- Source `path_through_waypoints(grid, width, height, start, waypoints,
goal)`: fold the segment loop over `all_points[1:]`, then run the
fallback. -/
def path_through_waypoints (g : Grid) (start : Int × Int)
    (waypoints : List (Int × Int)) (goal : Int × Int) : List Direction :=
  let all_points := start :: (waypoints ++ [goal])
  routeFinish g goal ((all_points.drop 1).foldl (routeStep g) ([], start))

/-- The waypoint router with the trailing fallback search removed: just the
segment loop.  Comparison object for the claim that the fallback never
changes the result. -/
def path_through_waypoints_no_final (g : Grid) (start : Int × Int)
    (waypoints : List (Int × Int)) (goal : Int × Int) : List Direction :=
  ((waypoints ++ [goal]).foldl (routeStep g) ([], start)).1

/-!  Replay semantics: the spec's notion of replaying a move sequence using
only grid-permitted moves and in-bounds destinations. -/

/-- Replaying a move sequence from a point: every step must be permitted by
the departure cell (`can_move`), land in bounds, and the replay must end at
the given target. -/
def replayOk (g : Grid) : Int × Int → List Direction → Int × Int → Bool
  | c, [], t => decide (c = t)
  | c, d :: ds, t =>
    can_move g c.1 c.2 d && inBoundsB g (move c.1 c.2 d) &&
      replayOk g (move c.1 c.2 d) ds t

/-- The full trajectory of cells visited while replaying a move sequence. -/
def positions : (Int × Int) → List Direction → List (Int × Int)
  | c, [] => [c]
  | c, d :: ds => c :: positions (move c.1 c.2 d) ds

/-- A target is reachable when some move sequence replays to it. -/
def Reachable (g : Grid) (s t : Int × Int) : Prop :=
  ∃ p, replayOk g s p t = true

/-- The permitted-move edge relation used by the search: a permitted move
whose destination is in bounds. -/
def Adj (g : Grid) (u v : Int × Int) : Prop :=
  ∃ d, can_move g u.1 u.2 d = true ∧ inBoundsB g (move u.1 u.2 d) = true ∧
    move u.1 u.2 d = v

/-- The opposite of each direction, for wall-consistency statements. -/
def opposite : Direction → Direction
  | UP => DOWN
  | DOWN => UP
  | LEFT => RIGHT
  | RIGHT => LEFT

/-- A grid is wall-consistent when the two flags guarding each shared edge
between horizontally or vertically adjacent cells agree (the "assumed but
not required" symmetry of the spec's data model). -/
def WallConsistent (g : Grid) : Prop :=
  ∀ x : Nat, x < g.width → ∀ y : Nat, y < g.height →
    (x + 1 < g.width → (g.cell y x).right = (g.cell y (x + 1)).left) ∧
    (y + 1 < g.height → (g.cell y x).bottom = (g.cell (y + 1) x).top)

instance wallConsistentDecidable (g : Grid) : Decidable (WallConsistent g) := by
  unfold WallConsistent
  infer_instance

/-!  Concrete grids used as witnesses and counterexamples. -/

/-- A cell with no walls at all. -/
def openCell : Cell := ⟨false, false, false, false⟩

/-- A cell walled in on all four sides. -/
def closedCell : Cell := ⟨true, true, true, true⟩

/-- A 1×1 grid. -/
def grid1x1 : Grid := ⟨1, 1, fun _ _ => openCell⟩

/-- A 3×1 grid with no internal walls. -/
def gridRow3 : Grid := ⟨3, 1, fun _ _ => openCell⟩

/-- A fully open 2×2 grid (two distinct shortest paths between opposite
corners). -/
def gridOpen2x2 : Grid := ⟨2, 2, fun _ _ => openCell⟩

/-- A 2×1 grid whose right cell is fully walled in while the left cell's
right wall is open: wall-inconsistent, the right cell can be entered but
never left. -/
def gridTrap2x1 : Grid :=
  ⟨2, 1, fun _ x => if x = 0 then ⟨true, true, true, false⟩ else closedCell⟩

/-- A wall-consistent 2×1 grid whose left cell is fully walled in. -/
def gridIso2x1 : Grid :=
  ⟨2, 1, fun _ x => if x = 0 then closedCell else ⟨true, true, true, true⟩⟩

/-- A 2×2 grid where the cell (1,0) can be entered from (0,0) but never
left: all of its own walls are closed, all other cells are open.
Wall-inconsistent; start (0,0), goal (1,1) are connected while the route
through the trap waypoint (1,0) dead-ends. -/
def gridTrap2x2 : Grid :=
  ⟨2, 2, fun y x => if y = 0 ∧ x = 1 then closedCell else openCell⟩

/-!  Basic lemmas: movement, bounds, replay. -/

theorem can_move_inBounds {g : Grid} {q : Int × Int} {d : Direction}
    (h : can_move g q.1 q.2 d = true) : inBoundsB g q = true := by
  unfold can_move at h
  split at h
  · exact absurd h (by simp)
  · rename_i hc
    push_neg at hc
    obtain ⟨h1, h2, h3, h4⟩ := hc
    simp only [inBoundsB, Bool.and_eq_true, decide_eq_true_eq]
    omega

theorem replayOk_nil {g : Grid} {c t : Int × Int} :
    replayOk g c [] t = true ↔ c = t := by
  simp [replayOk]

theorem replayOk_cons {g : Grid} {c t : Int × Int} {d : Direction}
    {ds : List Direction} :
    replayOk g c (d :: ds) t = true ↔
      can_move g c.1 c.2 d = true ∧ inBoundsB g (move c.1 c.2 d) = true ∧
        replayOk g (move c.1 c.2 d) ds t = true := by
  simp [replayOk, Bool.and_assoc]

theorem replayOk_append {g : Grid} {p q : List Direction} :
    ∀ {s t : Int × Int}, (replayOk g s (p ++ q) t = true ↔
      ∃ m, replayOk g s p m = true ∧ replayOk g m q t = true) := by
  induction p with
  | nil =>
    intro s t
    simp only [List.nil_append]
    constructor
    · intro h
      exact ⟨s, replayOk_nil.mpr rfl, h⟩
    · rintro ⟨m, hm, h⟩
      rw [replayOk_nil] at hm
      rw [hm]
      exact h
  | cons d ds ih =>
    intro s t
    simp only [List.cons_append, replayOk_cons, ih]
    constructor
    · rintro ⟨h1, h2, m, h3, h4⟩
      exact ⟨m, ⟨h1, h2, h3⟩, h4⟩
    · rintro ⟨m, ⟨h1, h2, h3⟩, h4⟩
      exact ⟨h1, h2, m, h3, h4⟩

theorem replayOk_snoc {g : Grid} {p : List Direction} {d : Direction}
    {s t : Int × Int} :
    replayOk g s (p ++ [d]) t = true ↔
      ∃ u, replayOk g s p u = true ∧ can_move g u.1 u.2 d = true ∧
        inBoundsB g t = true ∧ move u.1 u.2 d = t := by
  rw [replayOk_append]
  constructor
  · rintro ⟨m, h1, h2⟩
    rw [replayOk_cons] at h2
    obtain ⟨hc, hb, hr⟩ := h2
    rw [replayOk_nil] at hr
    subst hr
    exact ⟨m, h1, hc, hb, rfl⟩
  · rintro ⟨u, h1, hc, hb, hm⟩
    refine ⟨u, h1, ?_⟩
    rw [replayOk_cons]
    subst hm
    exact ⟨hc, hb, replayOk_nil.mpr rfl⟩

theorem positions_inBounds {g : Grid} :
    ∀ {p : List Direction} {s t : Int × Int}, inBoundsB g s = true →
      replayOk g s p t = true → ∀ c ∈ positions s p, inBoundsB g c = true := by
  intro p
  induction p with
  | nil =>
    intro s t hs _ c hc
    simp only [positions, List.mem_singleton] at hc
    subst hc
    exact hs
  | cons d ds ih =>
    intro s t hs hr c hc
    rw [replayOk_cons] at hr
    obtain ⟨hcm, hb, hr2⟩ := hr
    simp only [positions, List.mem_cons] at hc
    rcases hc with rfl | hc
    · exact hs
    · exact ih hb hr2 c hc

theorem positions_tail_inBounds {g : Grid} {p : List Direction}
    {s t : Int × Int} (hr : replayOk g s p t = true) :
    ∀ c ∈ (positions s p).tail, inBoundsB g c = true := by
  cases p with
  | nil =>
    intro c hc
    simp [positions] at hc
  | cons d ds =>
    intro c hc
    rw [replayOk_cons] at hr
    obtain ⟨hcm, hb, hr2⟩ := hr
    simp only [positions, List.tail_cons] at hc
    exact positions_inBounds hb hr2 c hc

theorem replayOk_start_inBounds {g : Grid} {p : List Direction}
    {s t : Int × Int} (hr : replayOk g s p t = true) (hne : p ≠ []) :
    inBoundsB g s = true := by
  cases p with
  | nil => exact absurd rfl hne
  | cons d ds =>
    rw [replayOk_cons] at hr
    exact can_move_inBounds hr.1

theorem replayOk_end_inBounds {g : Grid} {p : List Direction}
    {s t : Int × Int} (hr : replayOk g s p t = true) (hne : p ≠ []) :
    inBoundsB g t = true := by
  rcases List.eq_nil_or_concat p with rfl | ⟨q, d, rfl⟩
  · exact absurd rfl hne
  · rw [List.concat_eq_append, replayOk_snoc] at hr
    obtain ⟨u, _, _, hb, _⟩ := hr
    exact hb

theorem reachable_trans {g : Grid} {a b c : Int × Int}
    (h1 : Reachable g a b) (h2 : Reachable g b c) : Reachable g a c := by
  obtain ⟨p, hp⟩ := h1
  obtain ⟨q, hq⟩ := h2
  exact ⟨p ++ q, replayOk_append.mpr ⟨b, hp, hq⟩⟩

theorem reachable_self {g : Grid} (a : Int × Int) : Reachable g a a :=
  ⟨[], replayOk_nil.mpr rfl⟩

/-!  The set of in-bounds cells and the count of not-yet-visited cells,
used to bound the number of search-loop iterations. -/

/-- All in-bounds cells of the grid, as integer pairs. -/
def allCells (g : Grid) : List (Int × Int) :=
  (List.range g.width).flatMap fun (x : Nat) =>
    (List.range g.height).map fun (y : Nat) => ((x : Int), (y : Int))

theorem mem_allCells {g : Grid} {q : Int × Int} :
    q ∈ allCells g ↔ inBoundsB g q = true := by
  constructor
  · intro h
    obtain ⟨x, hx, h2⟩ := List.mem_flatMap.mp h
    obtain ⟨y, hy, h3⟩ := List.mem_map.mp h2
    rw [List.mem_range] at hx hy
    have h4 : (x : Int) = q.1 := congrArg Prod.fst h3
    have h5 : (y : Int) = q.2 := congrArg Prod.snd h3
    simp only [inBoundsB, Bool.and_eq_true, decide_eq_true_eq]
    refine ⟨⟨⟨?_, ?_⟩, ?_⟩, ?_⟩ <;> omega
  · intro h
    simp only [inBoundsB, Bool.and_eq_true, decide_eq_true_eq] at h
    obtain ⟨⟨⟨h1, h2⟩, h3⟩, h4⟩ := h
    apply List.mem_flatMap.mpr
    refine ⟨q.1.toNat, List.mem_range.mpr (by omega), ?_⟩
    apply List.mem_map.mpr
    refine ⟨q.2.toNat, List.mem_range.mpr (by omega), ?_⟩
    have e1 : ((q.1.toNat : Nat) : Int) = q.1 := by omega
    have e2 : ((q.2.toNat : Nat) : Int) = q.2 := by omega
    rw [e1, e2]

theorem length_allCells (g : Grid) :
    (allCells g).length = g.width * g.height := by
  unfold allCells
  rw [List.length_flatMap]
  have h : ∀ b ∈ List.map (List.length ∘ fun (x : Nat) =>
      (List.range g.height).map fun (y : Nat) => ((x : Int), (y : Int)))
      (List.range g.width), b = g.height := by
    intro b hb
    obtain ⟨x, _, h2⟩ := List.mem_map.mp hb
    rw [← h2]
    show ((List.range g.height).map fun (y : Nat) =>
      ((x : Int), (y : Int))).length = g.height
    rw [List.length_map, List.length_range]
  rw [List.eq_replicate_of_mem h, List.sum_replicate, List.length_map,
    List.length_range, smul_eq_mul]

/-- Number of in-bounds cells not yet in the visited set. -/
def unvis (g : Grid) (V : List (Int × Int)) : Nat :=
  ((allCells g).filter fun q => decide (q ∉ V)).length

theorem unvis_le (g : Grid) (V : List (Int × Int)) :
    unvis g V ≤ g.width * g.height := by
  rw [← length_allCells g]
  exact List.length_filter_le _ _

theorem length_filter_ne_lt {α : Type} [DecidableEq α] {a : α} :
    ∀ {m : List α}, a ∈ m →
      (m.filter fun c => decide (c ≠ a)).length < m.length := by
  intro m
  induction m with
  | nil =>
    intro h
    simp at h
  | cons b rest ih =>
    intro h
    by_cases hba : b = a
    · subst hba
      have h1 : ((b :: rest).filter fun c => decide (c ≠ b)) =
          rest.filter fun c => decide (c ≠ b) := by
        simp [List.filter_cons]
      rw [h1, List.length_cons]
      exact Nat.lt_succ_of_le (List.length_filter_le _ _)
    · have ha : a ∈ rest := by
        rcases List.mem_cons.mp h with h1 | h1
        · exact absurd h1.symm hba
        · exact h1
      have h1 : ((b :: rest).filter fun c => decide (c ≠ a)) =
          b :: rest.filter fun c => decide (c ≠ a) := by
        simp [List.filter_cons, hba]
      rw [h1, List.length_cons, List.length_cons]
      exact Nat.succ_lt_succ (ih ha)

theorem unvis_cons_lt {g : Grid} {V : List (Int × Int)} {q : Int × Int}
    (hmem : inBoundsB g q = true) (hnot : q ∉ V) :
    unvis g (q :: V) < unvis g V := by
  unfold unvis
  have hEq : ((allCells g).filter fun c => decide (c ∉ q :: V)) =
      ((allCells g).filter fun c => decide (c ∉ V)).filter
        fun c => decide (c ≠ q) := by
    rw [List.filter_filter]
    apply List.filter_congr
    intro c _
    by_cases h1 : c = q <;> by_cases h2 : c ∈ V <;>
      simp [h1, h2, List.mem_cons]
  rw [hEq]
  apply length_filter_ne_lt
  rw [List.mem_filter]
  exact ⟨mem_allCells.mpr hmem, by simpa using hnot⟩

/-!  Characterization of the four-direction expansion fold. -/

theorem expandStep_visited_mono {g : Grid} {c : Int × Int}
    {p : List Direction} {st : List (Int × Int) × List Entry} {d : Direction}
    {v : Int × Int} (h : v ∈ st.1) : v ∈ (expandStep g c p st d).1 := by
  unfold expandStep
  by_cases h1 : can_move g c.1 c.2 d = true
  · rw [if_pos h1]
    by_cases h2 : move c.1 c.2 d ∉ st.1 ∧ inBoundsB g (move c.1 c.2 d) = true
    · rw [if_pos h2]
      exact List.mem_cons_of_mem _ h
    · rw [if_neg h2]
      exact h
  · rw [if_neg h1]
    exact h

theorem expandStep_acc_mono {g : Grid} {c : Int × Int} {p : List Direction}
    {st : List (Int × Int) × List Entry} {d : Direction} {a : Entry}
    (h : a ∈ st.2) : a ∈ (expandStep g c p st d).2 := by
  unfold expandStep
  by_cases h1 : can_move g c.1 c.2 d = true
  · rw [if_pos h1]
    by_cases h2 : move c.1 c.2 d ∉ st.1 ∧ inBoundsB g (move c.1 c.2 d) = true
    · rw [if_pos h2]
      exact List.mem_append_left _ h
    · rw [if_neg h2]
      exact h
  · rw [if_neg h1]
    exact h

theorem expandStep_acc_shape {g : Grid} {c : Int × Int} {p : List Direction}
    {st : List (Int × Int) × List Entry} {d : Direction} {a : Entry}
    (h : a ∈ (expandStep g c p st d).2) :
    a ∈ st.2 ∨ (can_move g c.1 c.2 d = true ∧
      inBoundsB g (move c.1 c.2 d) = true ∧
      a = (move c.1 c.2 d, p ++ [d]) ∧ move c.1 c.2 d ∉ st.1) := by
  unfold expandStep at h
  by_cases h1 : can_move g c.1 c.2 d = true
  · rw [if_pos h1] at h
    by_cases h2 : move c.1 c.2 d ∉ st.1 ∧ inBoundsB g (move c.1 c.2 d) = true
    · rw [if_pos h2] at h
      rcases List.mem_append.mp h with h3 | h3
      · exact Or.inl h3
      · rw [List.mem_singleton] at h3
        exact Or.inr ⟨h1, h2.2, h3, h2.1⟩
    · rw [if_neg h2] at h
      exact Or.inl h
  · rw [if_neg h1] at h
    exact Or.inl h

theorem expandStep_visited_shape {g : Grid} {c : Int × Int}
    {p : List Direction} {st : List (Int × Int) × List Entry} {d : Direction}
    {v : Int × Int} (h : v ∈ (expandStep g c p st d).1) :
    v ∈ st.1 ∨ ∃ q, (v, q) ∈ (expandStep g c p st d).2 := by
  unfold expandStep at h ⊢
  by_cases h1 : can_move g c.1 c.2 d = true
  · rw [if_pos h1] at h ⊢
    by_cases h2 : move c.1 c.2 d ∉ st.1 ∧ inBoundsB g (move c.1 c.2 d) = true
    · rw [if_pos h2] at h ⊢
      rcases List.mem_cons.mp h with h3 | h3
      · subst h3
        exact Or.inr ⟨p ++ [d], List.mem_append_right _ (List.mem_singleton.mpr rfl)⟩
      · exact Or.inl h3
    · rw [if_neg h2] at h ⊢
      exact Or.inl h
  · rw [if_neg h1] at h ⊢
    exact Or.inl h

theorem expandStep_covers {g : Grid} {c : Int × Int} {p : List Direction}
    {st : List (Int × Int) × List Entry} {d : Direction}
    (hcm : can_move g c.1 c.2 d = true)
    (hb : inBoundsB g (move c.1 c.2 d) = true) :
    move c.1 c.2 d ∈ (expandStep g c p st d).1 := by
  unfold expandStep
  rw [if_pos hcm]
  by_cases h2 : move c.1 c.2 d ∉ st.1 ∧ inBoundsB g (move c.1 c.2 d) = true
  · rw [if_pos h2]
    exact List.mem_cons_self _ _
  · rw [if_neg h2]
    by_cases h3 : move c.1 c.2 d ∈ st.1
    · exact h3
    · exact absurd ⟨h3, hb⟩ h2

theorem expandStep_measure {g : Grid} {c : Int × Int} {p : List Direction}
    {st : List (Int × Int) × List Entry} {d : Direction} :
    (expandStep g c p st d).2.length + unvis g (expandStep g c p st d).1 ≤
      st.2.length + unvis g st.1 := by
  unfold expandStep
  by_cases h1 : can_move g c.1 c.2 d = true
  · rw [if_pos h1]
    by_cases h2 : move c.1 c.2 d ∉ st.1 ∧ inBoundsB g (move c.1 c.2 d) = true
    · rw [if_pos h2]
      have hlt := unvis_cons_lt h2.2 h2.1
      show (st.2 ++ [(move c.1 c.2 d, p ++ [d])]).length +
        unvis g (move c.1 c.2 d :: st.1) ≤ st.2.length + unvis g st.1
      rw [List.length_append, List.length_singleton]
      omega
    · rw [if_neg h2]
  · rw [if_neg h1]

theorem foldl_expand_visited_mono {g : Grid} {c : Int × Int}
    {p : List Direction} :
    ∀ (l : List Direction) (st : List (Int × Int) × List Entry)
      {v : Int × Int}, v ∈ st.1 → v ∈ (l.foldl (expandStep g c p) st).1 := by
  intro l
  induction l with
  | nil => intro st v h; exact h
  | cons d l2 ih =>
    intro st v h
    exact ih _ (expandStep_visited_mono h)

theorem foldl_expand_acc_mono {g : Grid} {c : Int × Int}
    {p : List Direction} :
    ∀ (l : List Direction) (st : List (Int × Int) × List Entry) {a : Entry},
      a ∈ st.2 → a ∈ (l.foldl (expandStep g c p) st).2 := by
  intro l
  induction l with
  | nil => intro st a h; exact h
  | cons d l2 ih =>
    intro st a h
    exact ih _ (expandStep_acc_mono h)

theorem foldl_expand_acc_shape {g : Grid} {c : Int × Int}
    {p : List Direction} :
    ∀ (l : List Direction) (st : List (Int × Int) × List Entry) {a : Entry},
      a ∈ (l.foldl (expandStep g c p) st).2 →
      a ∈ st.2 ∨ ∃ d, d ∈ l ∧ can_move g c.1 c.2 d = true ∧
        inBoundsB g (move c.1 c.2 d) = true ∧
        a = (move c.1 c.2 d, p ++ [d]) ∧ move c.1 c.2 d ∉ st.1 := by
  intro l
  induction l with
  | nil => intro st a h; exact Or.inl h
  | cons d l2 ih =>
    intro st a h
    rcases ih _ h with h1 | ⟨d2, hd2, hcm, hb, ha, hnv⟩
    · rcases expandStep_acc_shape h1 with h2 | ⟨hcm, hb, ha, hnv⟩
      · exact Or.inl h2
      · exact Or.inr ⟨d, List.mem_cons_self _ _, hcm, hb, ha, hnv⟩
    · exact Or.inr ⟨d2, List.mem_cons_of_mem _ hd2, hcm, hb, ha,
        fun hmem => hnv (expandStep_visited_mono hmem)⟩

theorem foldl_expand_visited_shape {g : Grid} {c : Int × Int}
    {p : List Direction} :
    ∀ (l : List Direction) (st : List (Int × Int) × List Entry)
      {v : Int × Int}, v ∈ (l.foldl (expandStep g c p) st).1 →
      v ∈ st.1 ∨ ∃ q, (v, q) ∈ (l.foldl (expandStep g c p) st).2 := by
  intro l
  induction l with
  | nil => intro st v h; exact Or.inl h
  | cons d l2 ih =>
    intro st v h
    rcases ih _ h with h1 | h1
    · rcases expandStep_visited_shape h1 with h2 | ⟨q, h2⟩
      · exact Or.inl h2
      · exact Or.inr ⟨q, foldl_expand_acc_mono l2 _ h2⟩
    · exact Or.inr h1

theorem foldl_expand_covers {g : Grid} {c : Int × Int} {p : List Direction} :
    ∀ (l : List Direction) (st : List (Int × Int) × List Entry)
      {d : Direction}, d ∈ l → can_move g c.1 c.2 d = true →
      inBoundsB g (move c.1 c.2 d) = true →
      move c.1 c.2 d ∈ (l.foldl (expandStep g c p) st).1 := by
  intro l
  induction l with
  | nil =>
    intro st d h
    simp at h
  | cons d0 l2 ih =>
    intro st d hd hcm hb
    rcases List.mem_cons.mp hd with h1 | h1
    · subst h1
      exact foldl_expand_visited_mono l2 _ (expandStep_covers hcm hb)
    · exact ih _ h1 hcm hb

theorem foldl_expand_measure {g : Grid} {c : Int × Int}
    {p : List Direction} :
    ∀ (l : List Direction) (st : List (Int × Int) × List Entry),
      (l.foldl (expandStep g c p) st).2.length +
        unvis g (l.foldl (expandStep g c p) st).1 ≤
      st.2.length + unvis g st.1 := by
  intro l
  induction l with
  | nil => intro st; exact Nat.le_refl _
  | cons d l2 ih =>
    intro st
    exact Nat.le_trans (ih _) expandStep_measure

/-!  The expansion as used by the search loop. -/

theorem expand_visited_mono {g : Grid} {c : Int × Int} {p : List Direction}
    {V : List (Int × Int)} {v : Int × Int} (h : v ∈ V) :
    v ∈ (expand g c p V).1 :=
  foldl_expand_visited_mono _ _ h

theorem expand_acc_shape {g : Grid} {c : Int × Int} {p : List Direction}
    {V : List (Int × Int)} {a : Entry} (h : a ∈ (expand g c p V).2) :
    ∃ d, can_move g c.1 c.2 d = true ∧
      inBoundsB g (move c.1 c.2 d) = true ∧
      a = (move c.1 c.2 d, p ++ [d]) ∧ move c.1 c.2 d ∉ V := by
  rcases foldl_expand_acc_shape _ _ h with h1 | ⟨d, _, h2⟩
  · simp at h1
  · exact ⟨d, h2⟩

theorem expand_visited_shape {g : Grid} {c : Int × Int} {p : List Direction}
    {V : List (Int × Int)} {v : Int × Int} (h : v ∈ (expand g c p V).1) :
    v ∈ V ∨ ∃ q, (v, q) ∈ (expand g c p V).2 :=
  foldl_expand_visited_shape _ _ h

theorem expand_covers {g : Grid} {c : Int × Int} {p : List Direction}
    {V : List (Int × Int)} {w : Int × Int} (h : Adj g c w) :
    w ∈ (expand g c p V).1 := by
  obtain ⟨d, hcm, hb, hmv⟩ := h
  rw [← hmv]
  exact foldl_expand_covers _ _ (by cases d <;> simp) hcm hb

theorem expand_measure {g : Grid} {c : Int × Int} {p : List Direction}
    {V : List (Int × Int)} :
    (expand g c p V).2.length + unvis g (expand g c p V).1 ≤ unvis g V := by
  have h := foldl_expand_measure (g := g) (c := c) (p := p)
    [UP, DOWN, LEFT, RIGHT] (V, [])
  simpa [expand] using h

/-!  The search-loop invariant: queue entries replay correctly and carry
shortest paths; visited cells are pending or fully processed; every cell
whose distance does not exceed the queue's minimum level is visited. -/

structure Inv (g : Grid) (s e : Int × Int) (Q : List Entry)
    (V : List (Int × Int)) : Prop where
  start_mem : s ∈ V
  entries : ∀ a ∈ Q, replayOk g s a.2 a.1 = true ∧
    (∀ q, replayOk g s q a.1 = true → a.2.length ≤ q.length) ∧ a.1 ∈ V
  sorted : Q.Pairwise fun a b =>
    a.2.length ≤ b.2.length ∧ b.2.length ≤ a.2.length + 1
  target : e ∈ V → ∃ p, (e, p) ∈ Q
  pending : ∀ v ∈ V, (∃ p, (v, p) ∈ Q) ∨ ∀ w, Adj g v w → w ∈ V
  frontier : ∀ t q, replayOk g s q t = true →
    (∀ a ∈ Q, q.length ≤ a.2.length) → t ∈ V

theorem pairwise_of_forall_mem {α : Type} {R : α → α → Prop} :
    ∀ {l : List α}, (∀ a ∈ l, ∀ b ∈ l, R a b) → l.Pairwise R := by
  intro l
  induction l with
  | nil => intro _; exact List.Pairwise.nil
  | cons a l2 ih =>
    intro h
    refine List.pairwise_cons.mpr ⟨?_, ?_⟩
    · intro b hb
      exact h a (List.mem_cons_self _ _) b (List.mem_cons_of_mem _ hb)
    · exact ih fun x hx y hy =>
        h x (List.mem_cons_of_mem _ hx) y (List.mem_cons_of_mem _ hy)

theorem inv_closure {g : Grid} {Q : List Entry} {V : List (Int × Int)}
    (hpend : ∀ v ∈ V, (∃ p, (v, p) ∈ Q) ∨ ∀ w, Adj g v w → w ∈ V) :
    ∀ (q : List Direction) (u t : Int × Int), u ∈ V →
      replayOk g u q t = true →
      t ∈ V ∨ ∃ c p2, (c, p2) ∈ Q ∧ Reachable g c t := by
  intro q
  induction q with
  | nil =>
    intro u t hu hr
    rw [replayOk_nil] at hr
    subst hr
    exact Or.inl hu
  | cons d ds ih =>
    intro u t hu hr
    rw [replayOk_cons] at hr
    obtain ⟨hcm, hb, hr2⟩ := hr
    rcases hpend u hu with ⟨p2, hp2⟩ | hproc
    · exact Or.inr ⟨u, p2, hp2,
        ⟨d :: ds, replayOk_cons.mpr ⟨hcm, hb, hr2⟩⟩⟩
    · exact ih _ _ (hproc _ ⟨d, hcm, hb, rfl⟩) hr2

theorem inv_init (g : Grid) (s e : Int × Int) :
    Inv g s e [(s, [])] [s] := by
  refine ⟨?_, ?_, ?_, ?_, ?_, ?_⟩
  · exact List.mem_singleton.mpr rfl
  · intro a ha
    rw [List.mem_singleton] at ha
    subst ha
    exact ⟨replayOk_nil.mpr rfl, fun q _ => Nat.zero_le _,
      List.mem_singleton.mpr rfl⟩
  · exact List.pairwise_singleton _ _
  · intro he
    rw [List.mem_singleton] at he
    exact ⟨[], by rw [he]; exact List.mem_singleton.mpr rfl⟩
  · intro v hv
    rw [List.mem_singleton] at hv
    subst hv
    exact Or.inl ⟨[], List.mem_singleton.mpr rfl⟩
  · intro t q hq hlen
    have h0 : q.length ≤ 0 := hlen (s, []) (List.mem_singleton.mpr rfl)
    have h1 : q = [] := List.eq_nil_of_length_eq_zero (Nat.le_zero.mp h0)
    subst h1
    rw [replayOk_nil] at hq
    rw [← hq]
    exact List.mem_singleton.mpr rfl

theorem inv_preserved {g : Grid} {s e c : Int × Int} {p : List Direction}
    {rest : List Entry} {V : List (Int × Int)}
    (hinv : Inv g s e ((c, p) :: rest) V) (hne : c ≠ e) :
    Inv g s e (rest ++ (expand g c p V).2) (expand g c p V).1 := by
  obtain ⟨hrep, hmin, hcV⟩ :=
    hinv.entries (c, p) (List.mem_cons_self _ _)
  obtain ⟨hhead0, hrest_sorted⟩ := List.pairwise_cons.mp hinv.sorted
  have hhead : ∀ b ∈ rest,
      p.length ≤ b.2.length ∧ b.2.length ≤ p.length + 1 := hhead0
  -- every new entry is a shortest extension of the head entry
  have hnew : ∀ a ∈ (expand g c p V).2,
      replayOk g s a.2 a.1 = true ∧
      (∀ q, replayOk g s q a.1 = true → a.2.length ≤ q.length) ∧
      a.1 ∈ (expand g c p V).1 ∧ a.2.length = p.length + 1 := by
    intro a ha
    obtain ⟨d, hcm, hb, hae, hnv⟩ := expand_acc_shape ha
    subst hae
    refine ⟨replayOk_snoc.mpr ⟨c, hrep, hcm, hb, rfl⟩, ?_, ?_, by simp⟩
    · intro q hq
      by_contra hlt
      push_neg at hlt
      rw [List.length_append, List.length_singleton] at hlt
      have hql : q.length ≤ p.length := by omega
      have hmem : move c.1 c.2 d ∈ V := by
        apply hinv.frontier _ q hq
        intro a2 ha2
        rcases List.mem_cons.mp ha2 with h1 | h1
        · rw [h1]
          exact hql
        · exact Nat.le_trans hql (hhead a2 h1).1
      exact hnv hmem
    · exact expand_covers ⟨d, hcm, hb, rfl⟩
  have hstart2 : s ∈ (expand g c p V).1 := expand_visited_mono hinv.start_mem
  have hpend2 : ∀ v ∈ (expand g c p V).1,
      (∃ p2, (v, p2) ∈ rest ++ (expand g c p V).2) ∨
        ∀ w, Adj g v w → w ∈ (expand g c p V).1 := by
    intro v hv
    rcases expand_visited_shape hv with hv1 | ⟨q2, hq2⟩
    · rcases hinv.pending v hv1 with ⟨p2, hp2⟩ | hproc
      · rcases List.mem_cons.mp hp2 with h1 | h1
        · have hvc : v = c := congrArg Prod.fst h1
          subst hvc
          exact Or.inr fun w hadj => expand_covers hadj
        · exact Or.inl ⟨p2, List.mem_append_left _ h1⟩
      · exact Or.inr fun w hadj => expand_visited_mono (hproc w hadj)
    · exact Or.inl ⟨q2, List.mem_append_right _ hq2⟩
  refine ⟨hstart2, ?_, ?_, ?_, hpend2, ?_⟩
  · -- entries
    intro a ha
    rcases List.mem_append.mp ha with h1 | h1
    · obtain ⟨h2, h3, h4⟩ := hinv.entries a (List.mem_cons_of_mem _ h1)
      exact ⟨h2, h3, expand_visited_mono h4⟩
    · obtain ⟨h2, h3, h4, _⟩ := hnew a h1
      exact ⟨h2, h3, h4⟩
  · -- sorted
    refine List.pairwise_append.mpr ⟨hrest_sorted, ?_, ?_⟩
    · apply pairwise_of_forall_mem
      intro a ha b hb
      have h1 := (hnew a ha).2.2.2
      have h2 := (hnew b hb).2.2.2
      omega
    · intro a ha b hb
      have h1 := hhead a ha
      have h2 := (hnew b hb).2.2.2
      omega
  · -- target
    intro he
    rcases expand_visited_shape he with h1 | ⟨q2, hq2⟩
    · obtain ⟨p2, hp2⟩ := hinv.target h1
      rcases List.mem_cons.mp hp2 with h2 | h2
      · exact absurd (congrArg Prod.fst h2).symm hne
      · exact ⟨p2, List.mem_append_left _ h2⟩
    · exact ⟨q2, List.mem_append_right _ hq2⟩
  · -- frontier
    intro t q hq hlen
    by_cases hql : q.length ≤ p.length
    · apply expand_visited_mono
      apply hinv.frontier t q hq
      intro a ha
      rcases List.mem_cons.mp ha with h1 | h1
      · rw [h1]
        exact hql
      · exact Nat.le_trans hql (hhead a h1).1
    · push_neg at hql
      cases hQ2 : rest ++ (expand g c p V).2 with
      | nil =>
        rcases inv_closure hpend2 q s t hstart2 hq with h1 | ⟨c2, p2, hm, _⟩
        · exact h1
        · rw [hQ2] at hm
          exact absurd hm (List.not_mem_nil _)
      | cons a0 rest0 =>
        have hall : ∀ a ∈ rest ++ (expand g c p V).2,
            a.2.length = p.length + 1 := by
          intro a ha
          have hub : a.2.length ≤ p.length + 1 := by
            rcases List.mem_append.mp ha with h1 | h1
            · exact (hhead a h1).2
            · exact Nat.le_of_eq (hnew a h1).2.2.2
          have hlb := hlen a ha
          omega
        have ha0 : a0 ∈ rest ++ (expand g c p V).2 := by
          rw [hQ2]
          exact List.mem_cons_self _ _
        have hqlen : q.length = p.length + 1 := by
          have h1 := hlen a0 ha0
          have h2 := hall a0 ha0
          omega
        rcases List.eq_nil_or_concat q with rfl | ⟨q0, d, hqc⟩
        · simp at hqlen
        · rw [List.concat_eq_append] at hqc
          subst hqc
          rw [replayOk_snoc] at hq
          obtain ⟨u, hu, hcmu, hbt, hmu⟩ := hq
          rw [List.length_append, List.length_singleton] at hqlen
          have hq0len : q0.length = p.length := by omega
          have huV : u ∈ V := by
            apply hinv.frontier u q0 hu
            intro a ha
            rcases List.mem_cons.mp ha with h1 | h1
            · rw [h1]
              exact Nat.le_of_eq hq0len
            · rw [hq0len]
              exact (hhead a h1).1
          rcases hinv.pending u huV with ⟨p2, hp2⟩ | hproc
          · rcases List.mem_cons.mp hp2 with h1 | h1
            · have huc : u = c := congrArg Prod.fst h1
              subst huc
              apply expand_covers
              exact ⟨d, hcmu, by rw [hmu]; exact hbt, hmu⟩
            · have hminu := (hinv.entries (u, p2)
                (List.mem_cons_of_mem _ h1)).2.1
              have h2 : p2.length ≤ q0.length := hminu q0 hu
              have h3 := hall (u, p2) (List.mem_append_left _ h1)
              simp only at h3
              omega
          · have h2 : t ∈ V := hproc t ⟨d, hcmu, by rw [hmu]; exact hbt, hmu⟩
            exact expand_visited_mono h2

theorem bfsAux_sound {g : Grid} {s e : Int × Int} :
    ∀ (fuel : Nat) (Q : List Entry) (V : List (Int × Int)),
      Inv g s e Q V →
      (∀ p, bfsAux g e fuel Q V = some (some p) →
        replayOk g s p e = true ∧
        ∀ q, replayOk g s q e = true → p.length ≤ q.length) ∧
      (bfsAux g e fuel Q V = some none → ¬Reachable g s e) := by
  intro fuel
  induction fuel with
  | zero =>
    intro Q V hinv
    cases Q with
    | nil =>
      constructor
      · intro p hp
        simp [bfsAux] at hp
      · intro _
        rintro ⟨q, hq⟩
        have he : e ∈ V :=
          hinv.frontier e q hq fun a ha => absurd ha (List.not_mem_nil a)
        obtain ⟨p2, hp2⟩ := hinv.target he
        exact absurd hp2 (List.not_mem_nil _)
    | cons a Q2 =>
      obtain ⟨c, p⟩ := a
      constructor
      · intro p2 hp2
        simp [bfsAux] at hp2
      · intro hp2
        simp [bfsAux] at hp2
  | succ fuel ih =>
    intro Q V hinv
    cases Q with
    | nil =>
      constructor
      · intro p hp
        simp [bfsAux] at hp
      · intro _
        rintro ⟨q, hq⟩
        have he : e ∈ V :=
          hinv.frontier e q hq fun a ha => absurd ha (List.not_mem_nil a)
        obtain ⟨p2, hp2⟩ := hinv.target he
        exact absurd hp2 (List.not_mem_nil _)
    | cons a Q2 =>
      obtain ⟨c, p⟩ := a
      by_cases hce : c = e
      · subst hce
        have heq : bfsAux g c (fuel + 1) ((c, p) :: Q2) V = some (some p) := by
          simp [bfsAux]
        constructor
        · intro p2 hp2
          rw [heq] at hp2
          obtain rfl : p = p2 := Option.some.inj (Option.some.inj hp2)
          obtain ⟨h1, h2, _⟩ := hinv.entries (c, p) (List.mem_cons_self _ _)
          exact ⟨h1, h2⟩
        · intro hp2
          rw [heq] at hp2
          exact absurd (Option.some.inj hp2) (by simp)
      · have heq : bfsAux g e (fuel + 1) ((c, p) :: Q2) V =
            bfsAux g e fuel (Q2 ++ (expand g c p V).2) (expand g c p V).1 := by
          simp [bfsAux, hce]
        rw [heq]
        exact ih _ _ (inv_preserved hinv hce)

theorem bfsAux_fuel {g : Grid} {e : Int × Int} :
    ∀ (fuel : Nat) (Q : List Entry) (V : List (Int × Int)),
      Q.length + unvis g V < fuel →
      (bfsAux g e fuel Q V).isSome = true := by
  intro fuel
  induction fuel with
  | zero =>
    intro Q V h
    exact absurd h (Nat.not_lt_zero _)
  | succ fuel ih =>
    intro Q V h
    cases Q with
    | nil => simp [bfsAux]
    | cons a Q2 =>
      obtain ⟨c, p⟩ := a
      by_cases hce : c = e
      · subst hce
        simp [bfsAux]
      · have heq : bfsAux g e (fuel + 1) ((c, p) :: Q2) V =
            bfsAux g e fuel (Q2 ++ (expand g c p V).2) (expand g c p V).1 := by
          simp [bfsAux, hce]
        rw [heq]
        apply ih
        rw [List.length_cons] at h
        rw [List.length_append]
        have hm := expand_measure (g := g) (c := c) (p := p) (V := V)
        omega

/-!  Behaviour of `bfs_path` itself. -/

theorem bfs_path_fuel_isSome (g : Grid) (s e : Int × Int) :
    (bfsAux g e (g.width * g.height + 2) [(s, [])] [s]).isSome = true := by
  apply bfsAux_fuel
  have h1 := unvis_le g [s]
  rw [List.length_singleton]
  omega

theorem bfs_path_some_spec {g : Grid} {s e : Int × Int} {p : List Direction}
    (h : bfs_path g s e = some p) :
    replayOk g s p e = true ∧
      ∀ q, replayOk g s q e = true → p.length ≤ q.length := by
  unfold bfs_path at h
  cases hb : bfsAux g e (g.width * g.height + 2) [(s, [])] [s] with
  | none =>
    have h2 := bfs_path_fuel_isSome g s e
    rw [hb] at h2
    simp at h2
  | some r =>
    cases r with
    | none =>
      rw [hb] at h
      simp at h
    | some p2 =>
      rw [hb] at h
      simp only [Option.getD_some] at h
      obtain rfl : p2 = p := Option.some.inj h
      exact (bfsAux_sound _ _ _ (inv_init g s e)).1 p2 hb

theorem bfs_path_sound {g : Grid} {s e : Int × Int} {p : List Direction}
    (h : bfs_path g s e = some p) : replayOk g s p e = true :=
  (bfs_path_some_spec h).1

theorem bfs_path_minimal {g : Grid} {s e : Int × Int} {p : List Direction}
    (h : bfs_path g s e = some p) :
    ∀ q, replayOk g s q e = true → p.length ≤ q.length :=
  (bfs_path_some_spec h).2

theorem bfs_path_none_not_reachable {g : Grid} {s e : Int × Int}
    (h : bfs_path g s e = none) : ¬Reachable g s e := by
  unfold bfs_path at h
  cases hb : bfsAux g e (g.width * g.height + 2) [(s, [])] [s] with
  | none =>
    have h2 := bfs_path_fuel_isSome g s e
    rw [hb] at h2
    simp at h2
  | some r =>
    cases r with
    | none => exact (bfsAux_sound _ _ _ (inv_init g s e)).2 hb
    | some p2 =>
      rw [hb] at h
      simp at h

theorem bfs_path_complete {g : Grid} {s e : Int × Int}
    (h : Reachable g s e) : ∃ p, bfs_path g s e = some p := by
  cases hb : bfs_path g s e with
  | none => exact absurd h (bfs_path_none_not_reachable hb)
  | some p => exact ⟨p, rfl⟩

theorem bfs_path_not_reachable_none {g : Grid} {s e : Int × Int}
    (h : ¬Reachable g s e) : bfs_path g s e = none := by
  cases hb : bfs_path g s e with
  | none => rfl
  | some p =>
    exact absurd ⟨p, bfs_path_sound hb⟩ h

/-!  Wall-consistent grids: every permitted edge can be traversed backwards,
so reachability is symmetric. -/

theorem inBoundsB_iff {g : Grid} {q : Int × Int} :
    inBoundsB g q = true ↔
      0 ≤ q.1 ∧ q.1 < (g.width : Int) ∧ 0 ≤ q.2 ∧ q.2 < (g.height : Int) := by
  simp only [inBoundsB, Bool.and_eq_true, decide_eq_true_eq]
  tauto

theorem inBoundsB_mk_iff {g : Grid} {a b : Int} :
    inBoundsB g (a, b) = true ↔
      0 ≤ a ∧ a < (g.width : Int) ∧ 0 ≤ b ∧ b < (g.height : Int) :=
  inBoundsB_iff

theorem can_move_iff {g : Grid} {x y : Int} {d : Direction} :
    can_move g x y d = true ↔
      (0 ≤ x ∧ x < (g.width : Int) ∧ 0 ≤ y ∧ y < (g.height : Int)) ∧
        wallFlag (g.cell y.toNat x.toNat) d = false := by
  unfold can_move
  split
  · rename_i hc
    constructor
    · intro h
      exact absurd h (by simp)
    · rintro ⟨⟨h1, h2, h3, h4⟩, _⟩
      rcases hc with h | h | h | h <;> omega
  · rename_i hc
    push_neg at hc
    obtain ⟨h1, h2, h3, h4⟩ := hc
    rw [Bool.not_eq_true']
    constructor
    · intro h
      exact ⟨⟨by omega, by omega, by omega, by omega⟩, h⟩
    · rintro ⟨_, h⟩
      exact h

theorem consistent_reverse {g : Grid} (hw : WallConsistent g) {x y : Int}
    {d : Direction} (hcm : can_move g x y d = true)
    (hb : inBoundsB g (move x y d) = true) :
    can_move g (move x y d).1 (move x y d).2 (opposite d) = true ∧
      move (move x y d).1 (move x y d).2 (opposite d) = (x, y) := by
  obtain ⟨⟨hu1, hu2, hu3, hu4⟩, hflag⟩ := can_move_iff.mp hcm
  cases d with
  | UP =>
    have hm : move x y UP = (x, y - 1) := by
      show (x + 0, y + -1) = (x, y - 1)
      rw [Prod.mk.injEq]
      constructor <;> ring
    rw [hm] at hb
    obtain ⟨hv1, hv2, hv3, hv4⟩ := inBoundsB_mk_iff.mp hb
    rw [hm]
    show can_move g x (y - 1) DOWN = true ∧ move x (y - 1) DOWN = (x, y)
    constructor
    · apply can_move_iff.mpr
      refine ⟨⟨hv1, hv2, hv3, hv4⟩, ?_⟩
      have hlt : (y - 1).toNat + 1 < g.height := by omega
      have h2 := (hw x.toNat (by omega) (y - 1).toNat (by omega)).2 hlt
      have hsucc : (y - 1).toNat + 1 = y.toNat := by omega
      rw [hsucc] at h2
      show (g.cell (y - 1).toNat x.toNat).bottom = false
      rw [h2]
      exact hflag
    · show (x + 0, y - 1 + 1) = (x, y)
      rw [Prod.mk.injEq]
      constructor <;> ring
  | DOWN =>
    have hm : move x y DOWN = (x, y + 1) := by
      show (x + 0, y + 1) = (x, y + 1)
      rw [Prod.mk.injEq]
      constructor <;> ring
    rw [hm] at hb
    obtain ⟨hv1, hv2, hv3, hv4⟩ := inBoundsB_mk_iff.mp hb
    rw [hm]
    show can_move g x (y + 1) UP = true ∧ move x (y + 1) UP = (x, y)
    constructor
    · apply can_move_iff.mpr
      refine ⟨⟨hv1, hv2, hv3, hv4⟩, ?_⟩
      have hlt : y.toNat + 1 < g.height := by omega
      have h2 := (hw x.toNat (by omega) y.toNat (by omega)).2 hlt
      have hsucc : (y + 1).toNat = y.toNat + 1 := by omega
      show (g.cell (y + 1).toNat x.toNat).top = false
      rw [hsucc, ← h2]
      exact hflag
    · show (x + 0, y + 1 + -1) = (x, y)
      rw [Prod.mk.injEq]
      constructor <;> ring
  | LEFT =>
    have hm : move x y LEFT = (x - 1, y) := by
      show (x + -1, y + 0) = (x - 1, y)
      rw [Prod.mk.injEq]
      constructor <;> ring
    rw [hm] at hb
    obtain ⟨hv1, hv2, hv3, hv4⟩ := inBoundsB_mk_iff.mp hb
    rw [hm]
    show can_move g (x - 1) y RIGHT = true ∧ move (x - 1) y RIGHT = (x, y)
    constructor
    · apply can_move_iff.mpr
      refine ⟨⟨hv1, hv2, hv3, hv4⟩, ?_⟩
      have hlt : (x - 1).toNat + 1 < g.width := by omega
      have h2 := (hw (x - 1).toNat (by omega) y.toNat (by omega)).1 hlt
      have hsucc : (x - 1).toNat + 1 = x.toNat := by omega
      rw [hsucc] at h2
      show (g.cell y.toNat (x - 1).toNat).right = false
      rw [h2]
      exact hflag
    · show (x - 1 + 1, y + 0) = (x, y)
      rw [Prod.mk.injEq]
      constructor <;> ring
  | RIGHT =>
    have hm : move x y RIGHT = (x + 1, y) := by
      show (x + 1, y + 0) = (x + 1, y)
      rw [Prod.mk.injEq]
      constructor <;> ring
    rw [hm] at hb
    obtain ⟨hv1, hv2, hv3, hv4⟩ := inBoundsB_mk_iff.mp hb
    rw [hm]
    show can_move g (x + 1) y LEFT = true ∧ move (x + 1) y LEFT = (x, y)
    constructor
    · apply can_move_iff.mpr
      refine ⟨⟨hv1, hv2, hv3, hv4⟩, ?_⟩
      have hlt : x.toNat + 1 < g.width := by omega
      have h2 := (hw x.toNat (by omega) y.toNat (by omega)).1 hlt
      have hsucc : (x + 1).toNat = x.toNat + 1 := by omega
      show (g.cell y.toNat (x + 1).toNat).left = false
      rw [hsucc, ← h2]
      exact hflag
    · show (x + 1 + -1, y + 0) = (x, y)
      rw [Prod.mk.injEq]
      constructor <;> ring

theorem adj_reachable {g : Grid} {u v : Int × Int} (h : Adj g u v) :
    Reachable g u v := by
  obtain ⟨d, h1, h2, h3⟩ := h
  exact ⟨[d], replayOk_cons.mpr ⟨h1, h2, replayOk_nil.mpr h3⟩⟩

theorem adj_symm {g : Grid} (hw : WallConsistent g) {u v : Int × Int}
    (h : Adj g u v) : Adj g v u := by
  obtain ⟨d, hcm, hb, hmv⟩ := h
  obtain ⟨h1, h2⟩ := consistent_reverse hw hcm hb
  rw [hmv] at h1 h2
  refine ⟨opposite d, h1, ?_, ?_⟩
  · rw [h2, Prod.mk.eta]
    exact can_move_inBounds hcm
  · rw [h2, Prod.mk.eta]

theorem reachable_symm {g : Grid} (hw : WallConsistent g) {s t : Int × Int}
    (h : Reachable g s t) : Reachable g t s := by
  suffices h2 : ∀ (p : List Direction) (u : Int × Int),
      replayOk g u p t = true → Reachable g t u by
    obtain ⟨p, hp⟩ := h
    exact h2 p s hp
  intro p
  induction p with
  | nil =>
    intro u hp
    rw [replayOk_nil] at hp
    subst hp
    exact reachable_self _
  | cons d ds ih =>
    intro u hp
    rw [replayOk_cons] at hp
    obtain ⟨h1, h2, h3⟩ := hp
    have hadj : Adj g u (move u.1 u.2 d) := ⟨d, h1, h2, rfl⟩
    exact reachable_trans (ih _ h3) (adj_reachable (adj_symm hw hadj))

/-!  The waypoint router: the segment fold preserves replayability of the
accumulated move list, and the trailing fallback never changes the
result. -/

theorem routeStep_eq_some {g : Grid} {st : List Direction × (Int × Int)}
    {target : Int × Int} {seg : List Direction}
    (hb : bfs_path g st.2 target = some seg) :
    routeStep g st target = (st.1 ++ seg, target) := by
  show (match bfs_path g st.2 target with
    | some segment => (st.1 ++ segment, target)
    | none => st) = (st.1 ++ seg, target)
  rw [hb]

theorem routeStep_eq_none {g : Grid} {st : List Direction × (Int × Int)}
    {target : Int × Int} (hb : bfs_path g st.2 target = none) :
    routeStep g st target = st := by
  show (match bfs_path g st.2 target with
    | some segment => (st.1 ++ segment, target)
    | none => st) = st
  rw [hb]

theorem routeStep_replay {g : Grid} {start : Int × Int}
    {st : List Direction × (Int × Int)} {target : Int × Int}
    (h : replayOk g start st.1 st.2 = true) :
    replayOk g start (routeStep g st target).1
      (routeStep g st target).2 = true := by
  unfold routeStep
  cases hb : bfs_path g st.2 target with
  | none => exact h
  | some seg =>
    show replayOk g start (st.1 ++ seg) target = true
    exact replayOk_append.mpr ⟨st.2, h, bfs_path_sound hb⟩

theorem route_fold_replay {g : Grid} {start : Int × Int} :
    ∀ (targets : List (Int × Int)) (st : List Direction × (Int × Int)),
      replayOk g start st.1 st.2 = true →
      replayOk g start (targets.foldl (routeStep g) st).1
        (targets.foldl (routeStep g) st).2 = true := by
  intro targets
  induction targets with
  | nil => intro st h; exact h
  | cons t ts ih =>
    intro st h
    exact ih _ (routeStep_replay h)

theorem routeFinish_of_eq {g : Grid} {goal : Int × Int}
    {st : List Direction × (Int × Int)} (h : st.2 = goal) :
    routeFinish g goal st = st.1 := by
  unfold routeFinish
  rw [if_neg (by simp [h])]

theorem routeFinish_fold_eq (g : Grid) (start goal : Int × Int)
    (ws : List (Int × Int)) :
    routeFinish g goal ((ws ++ [goal]).foldl (routeStep g) ([], start)) =
      ((ws ++ [goal]).foldl (routeStep g) ([], start)).1 := by
  rw [List.foldl_concat]
  cases hb : bfs_path g (ws.foldl (routeStep g) ([], start)).2 goal with
  | some seg =>
    rw [routeStep_eq_some hb]
    exact routeFinish_of_eq rfl
  | none =>
    rw [routeStep_eq_none hb]
    by_cases hcg : (ws.foldl (routeStep g) ([], start)).2 = goal
    · exact routeFinish_of_eq hcg
    · unfold routeFinish
      rw [if_pos hcg, hb]

theorem path_through_waypoints_eq_no_final (g : Grid) (start : Int × Int)
    (ws : List (Int × Int)) (goal : Int × Int) :
    path_through_waypoints g start ws goal =
      path_through_waypoints_no_final g start ws goal :=
  routeFinish_fold_eq g start goal ws

theorem router_reaches_goal {g : Grid} {start goal : Int × Int}
    (hw : WallConsistent g) (hr : Reachable g start goal)
    (ws : List (Int × Int)) :
    replayOk g start (path_through_waypoints g start ws goal) goal = true := by
  have hfold := @route_fold_replay g start ws ([], start)
    (replayOk_nil.mpr rfl)
  have hreach : Reachable g (ws.foldl (routeStep g) ([], start)).2 goal := by
    apply reachable_trans _ hr
    apply reachable_symm hw
    exact ⟨(ws.foldl (routeStep g) ([], start)).1, hfold⟩
  obtain ⟨seg, hseg⟩ := bfs_path_complete hreach
  have hstep : routeStep g (ws.foldl (routeStep g) ([], start)) goal =
      ((ws.foldl (routeStep g) ([], start)).1 ++ seg, goal) :=
    routeStep_eq_some hseg
  have hpath : path_through_waypoints g start ws goal =
      routeFinish g goal ((ws ++ [goal]).foldl (routeStep g) ([], start)) :=
    rfl
  rw [hpath, List.foldl_concat, hstep, @routeFinish_of_eq g goal
    ((ws.foldl (routeStep g) ([], start)).1 ++ seg, goal) rfl]
  exact replayOk_append.mpr
    ⟨(ws.foldl (routeStep g) ([], start)).2, hfold, bfs_path_sound hseg⟩

/-!  The claims. -/

/-- Claim C1: for every grid and every pair of in-bounds points with the
end reachable from the start under the departure-cell wall model, the
single-pair pathfinder returns a move sequence whose length is the least
length of any wall-permitted replay from start to end (the BFS
distance). -/
theorem claim1_shortest_path {g : Grid} {s e : Int × Int}
    (_hs : inBoundsB g s = true) (_he : inBoundsB g e = true)
    (hr : Reachable g s e) :
    ∃ p, bfs_path g s e = some p ∧
      IsLeast {n | ∃ q, replayOk g s q e = true ∧ q.length = n} p.length := by
  obtain ⟨p, hp⟩ := bfs_path_complete hr
  refine ⟨p, hp, ⟨p, bfs_path_sound hp, rfl⟩, ?_⟩
  rintro n ⟨q, hq, rfl⟩
  exact bfs_path_minimal hp q hq

/-- Witness for C1 on the fully open 3×1 grid. -/
theorem claim1_shortest_path_witness :
    ∃ p, bfs_path gridRow3 (0, 0) (2, 0) = some p ∧
      IsLeast {n | ∃ q, replayOk gridRow3 (0, 0) q (2, 0) = true ∧
        q.length = n} p.length :=
  claim1_shortest_path (by decide) (by decide) ⟨[RIGHT, RIGHT], by decide⟩

/-- Claim C2 counterexample: the pathfinder returns the empty sequence for
an out-of-bounds start equal to the end, and replaying that sequence visits
exactly one cell, which lies outside the grid bounds — so not every visited
cell of a returned sequence lies in bounds. -/
theorem claim2_counterexample :
    bfs_path grid1x1 (-1, 0) (-1, 0) = some [] ∧
      positions (-1, 0) [] = [(-1, 0)] ∧
      inBoundsB grid1x1 (-1, 0) = false := by
  decide

/-- Claim C2 as amended: the replay of any returned sequence takes only
moves permitted by the departure cell's wall flags and ends exactly at the
end point; every visited cell after the first move is in bounds, and the
start itself is in bounds whenever the sequence is nonempty (only the
degenerate out-of-bounds start = end case escapes the bounds guarantee). -/
theorem claim2_replay_sound {g : Grid} {s e : Int × Int} {p : List Direction}
    (h : bfs_path g s e = some p) :
    replayOk g s p e = true ∧
      (∀ c ∈ (positions s p).tail, inBoundsB g c = true) ∧
      (p ≠ [] → inBoundsB g s = true) := by
  have h1 := bfs_path_sound h
  exact ⟨h1, positions_tail_inBounds h1, replayOk_start_inBounds h1⟩

/-- Witness for C2 on the fully open 3×1 grid. -/
theorem claim2_replay_sound_witness :
    replayOk gridRow3 (0, 0) [RIGHT, RIGHT] (2, 0) = true ∧
      (∀ c ∈ (positions (0, 0) [RIGHT, RIGHT]).tail,
        inBoundsB gridRow3 c = true) ∧
      ([RIGHT, RIGHT] ≠ ([] : List Direction) →
        inBoundsB gridRow3 (0, 0) = true) :=
  claim2_replay_sound (by decide)

/-- Claim C3 counterexample: on a wall-inconsistent 2×2 grid whose cell
(1,0) can be entered but never left, a route from (0,0) to (1,1) exists,
yet the router sent through waypoint (1,0) returns [RIGHT], whose replay
from (0,0) does not end at the goal. -/
theorem claim3_counterexample :
    Reachable gridTrap2x2 (0, 0) (1, 1) ∧
      path_through_waypoints gridTrap2x2 (0, 0) [(1, 0)] (1, 1) = [RIGHT] ∧
      replayOk gridTrap2x2 (0, 0) [RIGHT] (1, 1) = false := by
  refine ⟨⟨[DOWN, RIGHT], by decide⟩, by decide, by decide⟩

/-- Claim C3 as amended: on wall-consistent grids (each shared edge's two
flags agree), whenever any wall-permitted route from start to goal exists,
the waypoint router's result replayed from the start is a valid replay
ending exactly at the goal. -/
theorem claim3_router_reaches_goal {g : Grid} {start goal : Int × Int}
    (hw : WallConsistent g) (hr : Reachable g start goal)
    (ws : List (Int × Int)) :
    replayOk g start (path_through_waypoints g start ws goal) goal = true :=
  router_reaches_goal hw hr ws

/-- Witness for C3 on the fully open 3×1 grid with one waypoint. -/
theorem claim3_router_reaches_goal_witness :
    replayOk gridRow3 (0, 0)
      (path_through_waypoints gridRow3 (0, 0) [(1, 0)] (2, 0)) (2, 0) =
      true :=
  claim3_router_reaches_goal (by decide) ⟨[RIGHT, RIGHT], by decide⟩ [(1, 0)]

/-- Claim C4: when a per-segment search returns NotFound the router's loop
step leaves the accumulated path and current position unchanged (no moves
appended, no error recorded) and moves on; concretely, on the open 3×1
grid with the out-of-bounds waypoint (5,5), the route equals the route
with no waypoints. -/
theorem claim4_skip_policy :
    (∀ (g : Grid) (st : List Direction × (Int × Int)) (target : Int × Int),
      bfs_path g st.2 target = none → routeStep g st target = st) ∧
      path_through_waypoints gridRow3 (0, 0) [(5, 5)] (2, 0) =
        path_through_waypoints gridRow3 (0, 0) [] (2, 0) := by
  constructor
  · intro g st target hb
    exact routeStep_eq_none hb
  · decide

/-- Witness for C4: the unreachable waypoint (5,5) on the 3×1 grid. -/
theorem claim4_skip_policy_witness :
    bfs_path gridRow3 (0, 0) (5, 5) = none ∧
      routeStep gridRow3 ([], (0, 0)) (5, 5) = ([], (0, 0)) :=
  ⟨by decide, claim4_skip_policy.1 gridRow3 ([], (0, 0)) (5, 5) (by decide)⟩

/-- Claim C5: the pathfinder is deterministic — equal inputs give equal
(byte-identical) outputs — and when several shortest paths exist the
returned one is the one picked by the fixed expansion order UP, DOWN,
LEFT, RIGHT: on the fully open 2×2 grid both [DOWN, RIGHT] and
[RIGHT, DOWN] are shortest, and the solver returns [DOWN, RIGHT] because
DOWN is expanded before RIGHT at every step. -/
theorem claim5_deterministic :
    (∀ (g1 g2 : Grid) (s1 s2 e1 e2 : Int × Int), g1 = g2 → s1 = s2 →
      e1 = e2 → bfs_path g1 s1 e1 = bfs_path g2 s2 e2) ∧
      bfs_path gridOpen2x2 (0, 0) (1, 1) = some [DOWN, RIGHT] ∧
      replayOk gridOpen2x2 (0, 0) [RIGHT, DOWN] (1, 1) = true := by
    refine ⟨?_, by decide, by decide⟩
    rintro g1 g2 s1 s2 e1 e2 rfl rfl rfl
    rfl

/-- Witness for C5: two invocations with equal inputs agree. -/
theorem claim5_deterministic_witness :
    bfs_path gridOpen2x2 (0, 0) (1, 1) = bfs_path gridOpen2x2 (0, 0) (1, 1) :=
  claim5_deterministic.1 gridOpen2x2 gridOpen2x2 (0, 0) (0, 0) (1, 1) (1, 1)
    rfl rfl rfl

/-- Claim C6: for every grid and every point p, in bounds or not,
`bfs_path g p p` is the empty move sequence; and the search returns the
dequeued path immediately whenever the dequeued cell is the end point,
with any queue, visited set, and remaining fuel — no expansion happens. -/
theorem claim6_zero_length :
    (∀ (g : Grid) (p : Int × Int), bfs_path g p p = some []) ∧
      ∀ (g : Grid) (p : Int × Int) (fuel : Nat) (path : List Direction)
        (rest : List Entry) (V : List (Int × Int)),
        bfsAux g p (fuel + 1) ((p, path) :: rest) V = some (some path) := by
  constructor
  · intro g p
    show (bfsAux g p (g.width * g.height + 2) [(p, [])] [p]).getD none =
      some []
    rw [show g.width * g.height + 2 = (g.width * g.height + 1) + 1 from rfl]
    simp [bfsAux]
  · intro g p fuel path rest V
    simp [bfsAux]

/-- Claim C7 counterexample: the out-of-bounds point (5,5) on the 1×1 grid
used as both start and end yields `some []`, not NotFound. -/
theorem claim7_counterexample :
    inBoundsB grid1x1 (5, 5) = false ∧
      bfs_path grid1x1 (5, 5) (5, 5) = some [] := by
  decide

/-- Claim C7 as amended: when the start or the end lies out of bounds and
start ≠ end, the pathfinder returns NotFound (the start = end case instead
returns the empty sequence by the immediate-dequeue check). -/
theorem claim7_out_of_range {g : Grid} {s e : Int × Int}
    (hout : inBoundsB g s = false ∨ inBoundsB g e = false) (hne : s ≠ e) :
    bfs_path g s e = none := by
  apply bfs_path_not_reachable_none
  rintro ⟨p, hp⟩
  cases p with
  | nil => exact hne (replayOk_nil.mp hp)
  | cons d ds =>
    have hs := replayOk_start_inBounds hp (by simp)
    have he := replayOk_end_inBounds hp (by simp)
    rcases hout with h | h
    · rw [h] at hs
      exact Bool.noConfusion hs
    · rw [h] at he
      exact Bool.noConfusion he

/-- Witness for C7: in-bounds start, out-of-bounds end on the 1×1 grid. -/
theorem claim7_out_of_range_witness :
    bfs_path grid1x1 (0, 0) (5, 5) = none :=
  claim7_out_of_range (Or.inr (by decide)) (by decide)

/-- Claim C8 counterexample: on a wall-inconsistent 2×1 grid the right
cell has all four of its own walls set, yet the search from the open left
cell INTO the walled cell succeeds, because only the departure cell's
flags are consulted — so the claim's reverse direction fails on arbitrary
grids. -/
theorem claim8_counterexample :
    (gridTrap2x1.cell 0 1).top = true ∧
      (gridTrap2x1.cell 0 1).bottom = true ∧
      (gridTrap2x1.cell 0 1).left = true ∧
      (gridTrap2x1.cell 0 1).right = true ∧
      inBoundsB gridTrap2x1 (1, 0) = true ∧
      bfs_path gridTrap2x1 (0, 0) (1, 0) = some [RIGHT] := by
  decide

/-- Claim C8 as amended: searches FROM a fully walled-in cell to any other
cell return NotFound on every grid; searches from any other cell TO the
walled-in cell return NotFound provided the grid is wall-consistent. -/
theorem claim8_isolated {g : Grid} {c t : Int × Int}
    (hb : inBoundsB g c = true)
    (hwalls : wallFlag (g.cell c.2.toNat c.1.toNat) UP = true ∧
      wallFlag (g.cell c.2.toNat c.1.toNat) DOWN = true ∧
      wallFlag (g.cell c.2.toNat c.1.toNat) LEFT = true ∧
      wallFlag (g.cell c.2.toNat c.1.toNat) RIGHT = true)
    (hne : c ≠ t) :
    bfs_path g c t = none ∧
      (WallConsistent g → bfs_path g t c = none) := by
  obtain ⟨w1, w2, w3, w4⟩ := hwalls
  constructor
  · apply bfs_path_not_reachable_none
    rintro ⟨p, hp⟩
    cases p with
    | nil => exact hne (replayOk_nil.mp hp)
    | cons d ds =>
      rw [replayOk_cons] at hp
      have hflag := (can_move_iff.mp hp.1).2
      cases d with
      | UP => rw [w1] at hflag; exact Bool.noConfusion hflag
      | DOWN => rw [w2] at hflag; exact Bool.noConfusion hflag
      | LEFT => rw [w3] at hflag; exact Bool.noConfusion hflag
      | RIGHT => rw [w4] at hflag; exact Bool.noConfusion hflag
  · intro hw
    apply bfs_path_not_reachable_none
    rintro ⟨p, hp⟩
    rcases List.eq_nil_or_concat p with rfl | ⟨q0, d, hqc⟩
    · exact hne (replayOk_nil.mp hp).symm
    · rw [hqc, List.concat_eq_append, replayOk_snoc] at hp
      obtain ⟨u, hu, hcmu, hbc, hmu⟩ := hp
      obtain ⟨hrev, _⟩ := consistent_reverse hw hcmu (by rw [hmu]; exact hb)
      rw [hmu] at hrev
      cases d with
      | UP =>
        simp only [opposite] at hrev
        have hflag := (can_move_iff.mp hrev).2
        rw [w2] at hflag
        exact Bool.noConfusion hflag
      | DOWN =>
        simp only [opposite] at hrev
        have hflag := (can_move_iff.mp hrev).2
        rw [w1] at hflag
        exact Bool.noConfusion hflag
      | LEFT =>
        simp only [opposite] at hrev
        have hflag := (can_move_iff.mp hrev).2
        rw [w4] at hflag
        exact Bool.noConfusion hflag
      | RIGHT =>
        simp only [opposite] at hrev
        have hflag := (can_move_iff.mp hrev).2
        rw [w3] at hflag
        exact Bool.noConfusion hflag

/-- Witness for C8 on a wall-consistent 2×1 grid whose left cell is fully
walled in. -/
theorem claim8_isolated_witness :
    bfs_path gridIso2x1 (0, 0) (1, 0) = none ∧
      bfs_path gridIso2x1 (1, 0) (0, 0) = none :=
  ⟨(claim8_isolated (by decide) (by decide) (by decide)).1,
    (claim8_isolated (by decide) (by decide) (by decide)).2 (by decide)⟩

/-- Claim C9: the search loop always terminates — with fuel
width·height + 2, strictly more than the maximal number of iterations
(each enqueued cell beyond the seed is a fresh in-bounds addition to the
visited set, so insertions are bounded by width·height), the loop
finishes, and `bfs_path` is exactly its result. -/
theorem claim9_termination (g : Grid) (s e : Int × Int) :
    (bfsAux g e (g.width * g.height + 2) [(s, [])] [s]).isSome = true ∧
      bfs_path g s e =
        (bfsAux g e (g.width * g.height + 2) [(s, [])] [s]).getD none :=
  ⟨bfs_path_fuel_isSome g s e, rfl⟩

/-- Claim C10: the router's trailing fallback search never changes the
result — the routed path equals the one computed by the segment loop
alone, because the loop's last target is the goal itself. -/
theorem claim10_fallback_redundant (g : Grid) (start : Int × Int)
    (ws : List (Int × Int)) (goal : Int × Int) :
    path_through_waypoints g start ws goal =
      path_through_waypoints_no_final g start ws goal :=
  path_through_waypoints_eq_no_final g start ws goal

end MazeSolver
